import Mathlib

/-!
# The Moon geode of osgHimmel (`src/moongeode.cpp`)

A shallow embedding of `MoonGeode`: the node state with its uniforms, the
per-frame `update`, the accessors, and the two GLSL stages the node installs
(`getVertexShaderSource`, `getFragmentShaderSource`).

Numbers are exact: every `float` is an element of a field `α` (the rationals
for the node, the reals for the shader stages, which need square roots and
trigonometric functions).  A division whose divisor is zero has no exact
value; such a result is `none`.  The one exception is the retrodirective term
of the fragment stage, which the shader evaluates to 2.0 at both points where
its formula divides by zero (see `retrodirective`).  Literals keep the decimal
text of the source.
-/

namespace osgHimmel

/-! ## Vectors and matrices (`osg::Vec3`, `osg::Vec4`, GLSL `vec3`, `vec4`, `mat4`) -/

/-- Three components, as `osg::Vec3` and GLSL `vec3`. -/
structure Vec3 (α : Type) where
  x : α
  y : α
  z : α
deriving DecidableEq

/-- Four components, as `osg::Vec4` and GLSL `vec4`. -/
structure Vec4 (α : Type) where
  x : α
  y : α
  z : α
  w : α
deriving DecidableEq

/-- A 4x4 matrix given by its four columns, as GLSL `mat4(c0, c1, c2, c3)`. -/
structure Mat4 (α : Type) where
  c0 : Vec4 α
  c1 : Vec4 α
  c2 : Vec4 α
  c3 : Vec4 α
deriving DecidableEq

section Basic

variable {α : Type}

/-- Componentwise image of a `Vec3`. -/
def Vec3.map {β : Type} (f : α → β) (v : Vec3 α) : Vec3 β :=
  ⟨f v.x, f v.y, f v.z⟩

/-- The constructor `Vec4(vec3, w)` of both osg and GLSL. -/
def Vec4.ofVec3 (v : Vec3 α) (w : α) : Vec4 α :=
  ⟨v.x, v.y, v.z, w⟩

/-- The swizzle `.xyz` (and `.rgb`). -/
def Vec4.xyz (v : Vec4 α) : Vec3 α :=
  ⟨v.x, v.y, v.z⟩

/-- The unchecked `osg::Vec3::operator[]`, which returns `_v[i]` of a
three-element array.  For `i ≥ 3` it reads the memory that follows the three
components; that content is not determined by the vector and is the
argument `past`. -/
def Vec3.index (v : Vec3 α) (i : Nat) (past : α) : α :=
  match i with
  | 0 => v.x
  | 1 => v.y
  | 2 => v.z
  | _ => past

/-- The product `vec3 * float` (also `osg::Vec3 * float`). -/
def Vec3.scale [Mul α] (v : Vec3 α) (s : α) : Vec3 α :=
  ⟨v.x * s, v.y * s, v.z * s⟩

/-- Exact division: no value when the divisor is zero. -/
def sdiv [Div α] [Zero α] [DecidableEq α] (a b : α) : Option α :=
  if b = 0 then none else some (a / b)

end Basic

/-! ## The node (`MoonGeode`) -/

section Node

variable {α : Type} [Field α] [DecidableEq α]

/-- The identity matrix, the value of a default-constructed `osg::Matrixd`. -/
def Mat4.identity : Mat4 α :=
  ⟨⟨1, 0, 0, 0⟩, ⟨0, 1, 0, 0⟩, ⟨0, 0, 1, 0⟩, ⟨0, 0, 0, 1⟩⟩

/-- What `update` reads from `himmel.astro()`: the results of the four
`AbstractAstronomy` queries for the current frame. -/
structure AbstractAstronomy (α : Type) where
  /-- Result of `getMoonPosition(refractionCorrected)`. -/
  getMoonPosition : Bool → Vec3 α
  /-- Result of `getAngularMoonRadius()`. -/
  getAngularMoonRadius : α
  /-- Result of `getMoonOrientation()`. -/
  getMoonOrientation : Mat4 α
  /-- Result of `getEarthShineIntensity()`. -/
  getEarthShineIntensity : α

/-- The mutable state of a `MoonGeode`: the values held by its uniforms and its
three data members.  The components of `u_moon` are optional because
`setScale` divides the stored `w` by `m_scale`: after a division by zero the
uniform holds no exact number. -/
structure MoonGeode (α : Type) where
  u_moon : Vec4 (Option α)
  u_moonr : Vec4 α
  u_moonCube : Int
  u_R : Mat4 α
  u_sunShine : Vec4 α
  u_earthShine : Vec3 α
  m_earthShineColor : Vec3 α
  m_earthShineScale : α
  m_scale : α

namespace MoonGeode

/-- `MoonGeode::defaultScale`. -/
def defaultScale : α := 2

/-- `MoonGeode::defaultSunShineColor`. -/
def defaultSunShineColor : Vec3 α := ⟨1.0, 0.96, 0.80⟩

/-- `MoonGeode::defaultSunShineIntensity`. -/
def defaultSunShineIntensity : α := 24

/-- `MoonGeode::defaultEarthShineColor`. -/
def defaultEarthShineColor : Vec3 α := ⟨0.92, 0.96, 1.00⟩

/-- `MoonGeode::defaultEarthShineIntensity`. -/
def defaultEarthShineIntensity : α := 1

/-- The constructor `MoonGeode::MoonGeode`: the member initialisers, the
assignment `m_scale = defaultScale()` and the uniforms created by
`setupUniforms` (`setupTextures` sets `u_moonCube` to 0 again). -/
def new : MoonGeode α where
  u_moon := ⟨some 0.0, some 0.0, some 1.0, some 1.0⟩
  u_moonr := ⟨0.0, 0.0, 1.0, 1.0⟩
  u_moonCube := 0
  u_R := Mat4.identity
  u_sunShine := Vec4.ofVec3 defaultSunShineColor defaultSunShineIntensity
  u_earthShine := ⟨0, 0, 0⟩
  m_earthShineColor := defaultEarthShineColor
  m_earthShineScale := defaultEarthShineIntensity
  m_scale := defaultScale

/-- `MoonGeode::update`.  `past` is what `moonv[3]` reads: `moonv` is an
`osg::Vec3`, so index 3 lies behind its last component. -/
def update (g : MoonGeode α) (astro : AbstractAstronomy α) (past : α) : MoonGeode α :=
  let moonv := astro.getMoonPosition false
  let g1 := { g with
    u_moon := Vec4.ofVec3 (moonv.map some) (some (astro.getAngularMoonRadius * g.m_scale)) }
  let moonrv := astro.getMoonPosition true
  let g2 := { g1 with u_moonr := Vec4.ofVec3 moonrv (moonv.index 3 past) }
  let g3 := { g2 with u_R := astro.getMoonOrientation }
  { g3 with
    u_earthShine :=
      (g3.m_earthShineColor.scale astro.getEarthShineIntensity).scale g3.m_earthShineScale }

/-- `MoonGeode::getScale`. -/
def getScale (g : MoonGeode α) : α :=
  g.m_scale

/-- `MoonGeode::setScale`: the new state and the returned value.  The stored
`w` becomes `temp[3] / m_scale * scale`. -/
def setScale (g : MoonGeode α) (scale : α) : MoonGeode α × α :=
  let temp := g.u_moon
  let temp1 : Vec4 (Option α) :=
    { temp with w := (temp.w.bind fun w => sdiv w g.m_scale).map fun q => q * scale }
  let g1 := { g with u_moon := temp1 }
  let g2 := { g1 with m_scale := scale }
  (g2, g2.getScale)

/-- `MoonGeode::getSunShineColor`. -/
def getSunShineColor (g : MoonGeode α) : Vec3 α :=
  let sunShine := g.u_sunShine
  ⟨sunShine.x, sunShine.y, sunShine.z⟩

/-- `MoonGeode::setSunShineColor`. -/
def setSunShineColor (g : MoonGeode α) (color : Vec3 α) : MoonGeode α × Vec3 α :=
  let sunShine := g.u_sunShine
  let sunShine1 : Vec4 α := { sunShine with x := color.x, y := color.y, z := color.z }
  let g1 := { g with u_sunShine := sunShine1 }
  (g1, g1.getSunShineColor)

/-- `MoonGeode::getSunShineIntensity`. -/
def getSunShineIntensity (g : MoonGeode α) : α :=
  g.u_sunShine.w

/-- `MoonGeode::setSunShineIntensity`. -/
def setSunShineIntensity (g : MoonGeode α) (intensity : α) : MoonGeode α × α :=
  let sunShine := g.u_sunShine
  let sunShine1 : Vec4 α := { sunShine with w := intensity }
  let g1 := { g with u_sunShine := sunShine1 }
  (g1, g1.getSunShineIntensity)

/-- `MoonGeode::getEarthShineColor`. -/
def getEarthShineColor (g : MoonGeode α) : Vec3 α :=
  g.m_earthShineColor

/-- `MoonGeode::setEarthShineColor`. -/
def setEarthShineColor (g : MoonGeode α) (color : Vec3 α) : MoonGeode α × Vec3 α :=
  let g1 := { g with m_earthShineColor := color }
  (g1, g1.m_earthShineColor)

/-- `MoonGeode::getEarthShineIntensity`. -/
def getEarthShineIntensity (g : MoonGeode α) : α :=
  g.m_earthShineScale

/-- `MoonGeode::setEarthShineIntensity`. -/
def setEarthShineIntensity (g : MoonGeode α) (intensity : α) : MoonGeode α × α :=
  let g1 := { g with m_earthShineScale := intensity }
  (g1, g1.m_earthShineScale)

end MoonGeode

end Node

/-! ## GLSL built-in operations used by the two stages -/

section Glsl

variable {α : Type} [LinearOrderedField α]

/-- The product `float * vec3`. -/
def Vec3.smul (s : α) (v : Vec3 α) : Vec3 α :=
  ⟨s * v.x, s * v.y, s * v.z⟩

/-- The componentwise product `vec3 * vec3`. -/
def Vec3.mul (a b : Vec3 α) : Vec3 α :=
  ⟨a.x * b.x, a.y * b.y, a.z * b.z⟩

/-- The sum `vec3 + vec3`. -/
def Vec3.add (a b : Vec3 α) : Vec3 α :=
  ⟨a.x + b.x, a.y + b.y, a.z + b.z⟩

/-- The difference `vec3 - vec3`. -/
def Vec3.sub (a b : Vec3 α) : Vec3 α :=
  ⟨a.x - b.x, a.y - b.y, a.z - b.z⟩

/-- The constructor `vec3(s)`. -/
def Vec3.splat (s : α) : Vec3 α :=
  ⟨s, s, s⟩

/-- The componentwise `max(vec3, vec3)`. -/
def Vec3.max (a b : Vec3 α) : Vec3 α :=
  ⟨Max.max a.x b.x, Max.max a.y b.y, Max.max a.z b.z⟩

/-- GLSL `dot`. -/
def dot (a b : Vec3 α) : α :=
  a.x * b.x + a.y * b.y + a.z * b.z

/-- GLSL `cross`. -/
def cross (a b : Vec3 α) : Vec3 α :=
  ⟨a.y * b.z - a.z * b.y, a.z * b.x - a.x * b.z, a.x * b.y - a.y * b.x⟩

/-- GLSL `length`, over the square root function `sqrt`. -/
def length (sqrt : α → α) (a : Vec3 α) : α :=
  sqrt (dot a a)

/-- GLSL `normalize`: the vector divided by its length.  There is no value
for a vector of length zero. -/
def normalize (sqrt : α → α) (a : Vec3 α) : Option (Vec3 α) :=
  let l := length sqrt a
  if l = 0 then none else some ⟨a.x / l, a.y / l, a.z / l⟩

/-- GLSL `clamp(x, minVal, maxVal)`, which is `min(max(x, minVal), maxVal)`. -/
def clamp (x minVal maxVal : α) : α :=
  min (max x minVal) maxVal

/-- GLSL `smoothstep(edge0, edge1, x)`: Hermite interpolation of the clamped
ratio.  Every call of the fragment stage has constant, distinct edges. -/
def smoothstep (edge0 edge1 x : α) : α :=
  let t := clamp ((x - edge0) / (edge1 - edge0)) 0 1
  t * t * (3 - 2 * t)

/-- GLSL `tan`, the quotient of sine and cosine; no value where the cosine
is zero. -/
def tan (sin cos : α → α) (x : α) : Option α :=
  sdiv (sin x) (cos x)

/-- The product `mat4 * vec4` (matrix times column vector). -/
def Mat4.mulVec (m : Mat4 α) (v : Vec4 α) : Vec4 α :=
  ⟨m.c0.x * v.x + m.c1.x * v.y + m.c2.x * v.z + m.c3.x * v.w,
   m.c0.y * v.x + m.c1.y * v.y + m.c2.y * v.z + m.c3.y * v.w,
   m.c0.z * v.x + m.c1.z * v.y + m.c2.z * v.z + m.c3.z * v.w,
   m.c0.w * v.x + m.c1.w * v.y + m.c2.w * v.z + m.c3.w * v.w⟩

/-- The product `vec4 * mat4` (row vector times matrix). -/
def Mat4.vecMul (v : Vec4 α) (m : Mat4 α) : Vec4 α :=
  ⟨v.x * m.c0.x + v.y * m.c0.y + v.z * m.c0.z + v.w * m.c0.w,
   v.x * m.c1.x + v.y * m.c1.y + v.z * m.c1.z + v.w * m.c1.w,
   v.x * m.c2.x + v.y * m.c2.y + v.z * m.c2.z + v.w * m.c2.w,
   v.x * m.c3.x + v.y * m.c3.y + v.z * m.c3.z + v.w * m.c3.w⟩

end Glsl

/-! ## The vertex stage (`getVertexShaderSource`) -/

section Vertex

variable {α : Type} [LinearOrderedField α]

/-- The constant `SQRT2` of the vertex stage. -/
def SQRT2 : α := 1.41421356237

/-- The tangent space of the unit sphere at `m`:
`u = normalize(cross(vec3(0, 0, 1), m))`, `v = normalize(cross(m, u))`. -/
def tangentSpace (sqrt : α → α) (m : Vec3 α) : Option (Vec3 α × Vec3 α) :=
  match normalize sqrt (cross ⟨0, 0, 1⟩ m) with
  | none => none
  | some u =>
    match normalize sqrt (cross m u) with
    | none => none
    | some v => some (u, v)

/-- The outputs of the vertex stage. -/
structure VertexOut (α : Type) where
  m_tangent : Mat4 α
  m_eye : Vec3 α
  gl_TexCoord0 : Vec4 α
  gl_Position : Vec4 α

/-- The `main` of the vertex stage.  `sqrt`, `sin` and `cos` are the functions
behind the built-ins and `mvp` is `gl_ModelViewProjectionMatrix`. -/
def vertexMain (sqrt sin cos : α → α) (mvp : Mat4 α) (moon moonr gl_Vertex : Vec4 α) :
    Option (VertexOut α) :=
  let m := moonr.xyz
  match tangentSpace sqrt m with
  | none => none
  | some (u, v) =>
    let m_tangent : Mat4 α :=
      ⟨Vec4.ofVec3 u 0.0, Vec4.ofVec3 v 0.0, Vec4.ofVec3 m 0.0, Vec4.ofVec3 (Vec3.splat 0.0) 1.0⟩
    match tan sin cos moon.w with
    | none => none
    | some t =>
      let mScale := t * SQRT2
      match normalize sqrt ((Vec3.smul gl_Vertex.x u).add (Vec3.smul gl_Vertex.y v)) with
      | none => none
      | some n =>
        let m_eye := m.sub (n.scale mScale)
        some ⟨m_tangent, m_eye, gl_Vertex, mvp.mulVec (Vec4.ofVec3 m_eye 1.0)⟩

/-- The `main` of the vertex stage with the constant `SQRT2` replaced by the
argument `sqrt2`; `vertexMain` is the instance at the literal of the source. -/
def vertexMainWith (sqrt2 : α) (sqrt sin cos : α → α) (mvp : Mat4 α)
    (moon moonr gl_Vertex : Vec4 α) : Option (VertexOut α) :=
  let m := moonr.xyz
  match tangentSpace sqrt m with
  | none => none
  | some (u, v) =>
    let m_tangent : Mat4 α :=
      ⟨Vec4.ofVec3 u 0.0, Vec4.ofVec3 v 0.0, Vec4.ofVec3 m 0.0, Vec4.ofVec3 (Vec3.splat 0.0) 1.0⟩
    match tan sin cos moon.w with
    | none => none
    | some t =>
      let mScale := t * sqrt2
      match normalize sqrt ((Vec3.smul gl_Vertex.x u).add (Vec3.smul gl_Vertex.y v)) with
      | none => none
      | some n =>
        let m_eye := m.sub (n.scale mScale)
        some ⟨m_tangent, m_eye, gl_Vertex, mvp.mulVec (Vec4.ofVec3 m_eye 1.0)⟩

end Vertex

/-! ## The fragment stage (`getFragmentShaderSource`) -/

section Fragment

variable {α : Type} [LinearOrderedField α]

/-- The constant `radius`. -/
def radius : α := 0.98

/-- The constant `PI`. -/
def PI : α := 3.1415926535897932

/-- The constant `TWO_OVER_THREEPI`. -/
def TWO_OVER_THREEPI : α := 0.2122065907891938

/-- The first test of `main`: `zz < 1.0 - radius` with
`zz = radius * radius - x * x - y * y`. -/
def outsideDisc (x y : α) : Bool :=
  let zz := radius * radius - x * x - y * y
  decide (zz < 1.0 - radius)

/-- The retrodirective term `_R` of the Hapke-Lommel-Seeliger block,
`2.0 - tan_p / (2.0 * g) * (1.0 - exp(-g / tan_p)) * (3.0 - exp(-g / tan_p))`
with `tan_p = tan(p)` and `g = 0.6`, for every phase angle `p`.

* `tan_p = 0` (at `cos_p = 1`, where `p = 0`): `-g / 0.0` is minus infinity and
  its exponential is `0.0`; the product has the factor `tan_p / (2.0 * g) = 0`,
  so `_R = 2.0`.
* `cos(p) = 0` (at `cos_p = 0`, to which `clamp` sends every
  `dot(eye, sun) ≤ 0`): the tangent has no exact value.  The shader gets a
  finite tangent of magnitude about `2.3e7` for the float next to pi/2, `-g / tan_p`
  is then below the float resolution at 1, `exp` returns `1.0`, the factor
  `1.0 - exp(-g / tan_p)` is `0.0` and `_R = 2.0`; that value is taken here. -/
def retrodirective (sin cos exp : α → α) (p : α) : α :=
  let g : α := 0.6
  match tan sin cos p with
  | none => 2.0
  | some tan_p =>
    let e : α := if tan_p = 0 then 0 else exp (-g / tan_p)
    2.0 - tan_p / (2.0 * g) * (1.0 - e) * (3.0 - e)

/-- The value computed for `F` by the Hapke-Lommel-Seeliger block, before the
test on `dot_nl`, for every `eye` and `sun`.  It has no value when
`(-dot_ne) / dot_nl` or the final quotient divides by zero. -/
def brdfRaw (acos sin cos exp : α → α) (eye sun mn : Vec3 α) : Option α :=
  let cos_p := clamp (dot eye sun) 0.0 1.0
  let p := acos cos_p
  let dot_ne := dot mn eye
  let dot_nl := dot mn sun
  let t : α := 0.1
  let _R := retrodirective sin cos exp p
  let _S := (sin p + (PI - p) * cos_p) / PI + t * (1.0 - cos_p) * (1.0 - cos_p)
  match sdiv (-dot_ne) dot_nl with
  | none => none
  | some r => sdiv (TWO_OVER_THREEPI * _R * _S * 1.0) (1.0 + r)

/-- The value of `F` used by the rest of `main`: the computed value, replaced
by `0.0` when `dot_nl > 0.0`. -/
def brdf (acos sin cos exp : α → α) (eye sun mn : Vec3 α) : Option α :=
  if dot mn sun > 0.0 then some 0.0 else brdfRaw acos sin cos exp eye sun mn

/-- The accumulation of `diffuse` from the two light terms, the albedo `c`
and the value `F`. -/
def diffuse (earthShine : Vec3 α) (sunShine : Vec4 α) (c : Vec3 α) (F : α) : Vec3 α :=
  let d0 : Vec3 α := Vec3.splat 0
  let d1 := d0.add earthShine
  let d2 := d1.add ((Vec3.smul sunShine.w sunShine.xyz).scale F)
  let d3 := d2.mul c
  Vec3.max (Vec3.splat 0.0) d3

/-- The local `_e0` of the lunar eclipse block. -/
def e0 : α := 0.00451900239074503315565337058629

/-- The local `_e1`. -/
def e1 : α := 4.65 * e0

/-- The local `_e2`. -/
def e2 : α := 2.65 * e0

/-- The multiplier `le` of the lunar eclipse block as a function of the two
distances `_d` (sampled point) and `_d2` (mean distance). -/
def eclipseLe (_d _d2 : α) : Vec3 α :=
  if _d - e1 < 0 then
    let le0 : Vec3 α := Vec3.smul 0.600 ⟨1.0, 1.0, 1.0⟩
    let le1 : Vec3 α := Vec3.smul 1.800 ⟨1.0, 1.0, 1.0⟩
    let le2 : Vec3 α := Vec3.smul 0.077 ⟨0.5, 0.8, 1.0⟩
    let le3 : Vec3 α := Vec3.smul 0.050 ⟨0.3, 0.4, 0.9⟩
    let s2 : α := 0.08
    let le : Vec3 α :=
      ((Vec3.splat 1).sub (le0.scale (min 1.0 (smoothstep e1 e2 _d)))).sub
        (le1.scale (min 0.2 (smoothstep (e2 * (1 + s2)) (e2 * (1 - s2)) _d)))
    let r_x : α := (1.825 - 0.5 * _d2 / e0) / 1.825
    if r_x > 0.0 then
      let b : α := 1 + 28 * (3 * r_x * r_x - 2 * r_x * r_x * r_x)
      if _d - e2 * 2 < 0 then
        let lea := le.sub (le2.scale (clamp (1 - _d / e2) 0 1))
        let leb := lea.add (le3.scale (smoothstep (e2 * (1 - s2 * 2)) (e2 * (1 + s2)) _d))
        leb.scale b
      else
        le.scale b
    else
      le.scale 1
  else
    Vec3.splat 1

/-- The lunar eclipse block: `_d` and `_d2` from the normal `mn`, the Moon
direction `m` and the sun direction. -/
def eclipse (sqrt : α → α) (mn m sun : Vec3 α) : Vec3 α :=
  let _a := (mn.scale e0).sub m
  let _d := length sqrt (cross _a sun)
  let _a2 := (m.scale e0).sub m
  let _d2 := length sqrt (cross _a2 sun)
  eclipseLe _d _d2

/-- The final statement `gl_FragColor = vec4(le * diffuse, 1.0)`. -/
def fragColor (le dif : Vec3 α) : Vec4 α :=
  Vec4.ofVec3 (le.mul dif) 1.0

/-- The uniforms read by the fragment stage. -/
structure FragUniforms (α : Type) where
  sun : Vec3 α
  moon : Vec4 α
  R : Mat4 α
  sunShine : Vec4 α
  earthShine : Vec3 α

/-- What the fragment stage does with a pixel. -/
inductive Fragment (α : Type) where
  | discard : Fragment α
  | color (gl_FragColor : Vec4 α) : Fragment α

/-- The `main` of the fragment stage.  `sqrt`, `sin`, `cos`, `acos` and `exp`
are the functions behind the built-ins, `belowHorizon` is the function of that
name from the included horizon snippet and `textureCube` the lookup in
`moonCube`.  The local `b` of the intensity mapping is never read and is left
out. -/
def fragmentMain (sqrt sin cos acos exp : α → α) (belowHorizon : Vec3 α → Bool)
    (textureCube : Vec3 α → Vec4 α) (U : FragUniforms α)
    (gl_TexCoord0 : Vec4 α) (m_eye : Vec3 α) (m_tangent : Mat4 α) : Option (Fragment α) :=
  let x := gl_TexCoord0.x
  let y := gl_TexCoord0.y
  let zz := radius * radius - x * x - y * y
  if outsideDisc x y then some Fragment.discard
  else
    match normalize sqrt m_eye with
    | none => none
    | some eye =>
      if belowHorizon eye then some Fragment.discard
      else
        let z := sqrt zz
        let mn := (m_tangent.mulVec ⟨x, y, z, 1.0⟩).xyz
        let m := U.moon.xyz
        match brdf acos sin cos exp eye U.sun mn with
        | none => none
        | some F =>
          let stu := (Mat4.vecMul ⟨x, y, z, 1.0⟩ U.R).xyz
          let c := (textureCube stu).xyz
          let dif := diffuse U.earthShine U.sunShine c F
          let le := eclipse sqrt mn m U.sun
          some (Fragment.color (fragColor le dif))

end Fragment

/-! ## Call sequences -/

section Sequences

variable {α : Type} [Field α] [DecidableEq α]

/-- The state after the calls `setScale(s)` for the scales `s` of a list, in
order. -/
def MoonGeode.setScales (g : MoonGeode α) (scales : List α) : MoonGeode α :=
  scales.foldl (fun h s => (h.setScale s).1) g

end Sequences

/-! ## Concrete inputs -/

section Examples

/-- An ephemeris state: Moon at `(0.001, 0, 0.9999995)` (apparent and
refracted), angular radius `0.01`, identity orientation, earth shine `1`. -/
def exampleAstro : AbstractAstronomy ℚ where
  getMoonPosition := fun _ => ⟨0.001, 0, 0.9999995⟩
  getAngularMoonRadius := 0.01
  getMoonOrientation := Mat4.identity
  getEarthShineIntensity := 1

end Examples

/-! ## Properties of the node -/

section NodeTheorems

open MoonGeode

/-- C1 (as amended): for a stored radius `r`, a non-zero original scale held in
`m_scale` and a non-zero scale `s`, `setScale(s)` followed by
`setScale(originalScale)` leaves `moon.w` equal to `r` and `m_scale` equal to
the original scale. -/
theorem setScale_round_trip (g : MoonGeode ℚ) (r s : ℚ) (hw : g.u_moon.w = some r)
    (hs0 : g.m_scale ≠ 0) (hs : s ≠ 0) :
    ((g.setScale s).1.setScale g.m_scale).1.u_moon.w = some r ∧
      ((g.setScale s).1.setScale g.m_scale).1.m_scale = g.m_scale := by
  simp only [setScale, sdiv, hw, Option.some_bind, if_neg hs0, Option.map_some', if_neg hs,
    Option.some.injEq, and_true]
  field_simp
  ring

/-- C1, witness: the fresh node (`moon.w = 1`, scale 2), rescaled to 3 and back. -/
theorem setScale_round_trip_witness :
    (MoonGeode.new : MoonGeode ℚ).u_moon.w = some 1 ∧
      (MoonGeode.new : MoonGeode ℚ).m_scale ≠ 0 ∧ (3 : ℚ) ≠ 0 ∧
      (((MoonGeode.new : MoonGeode ℚ).setScale 3).1.setScale
        (MoonGeode.new : MoonGeode ℚ).m_scale).1.u_moon.w = some 1 ∧
      (((MoonGeode.new : MoonGeode ℚ).setScale 3).1.setScale
        (MoonGeode.new : MoonGeode ℚ).m_scale).1.m_scale = (MoonGeode.new : MoonGeode ℚ).m_scale := by
  have hw : (MoonGeode.new : MoonGeode ℚ).u_moon.w = some 1 := by norm_num [MoonGeode.new]
  have hs0 : (MoonGeode.new : MoonGeode ℚ).m_scale ≠ 0 := by
    norm_num [MoonGeode.new, defaultScale]
  have hs : (3 : ℚ) ≠ 0 := by norm_num
  exact ⟨hw, hs0, hs, setScale_round_trip MoonGeode.new 1 3 hw hs0 hs⟩

/-- C1, counterexample: on the fresh node (`moon.w = 1`, `m_scale = 2`),
`setScale(0)` followed by `setScale(2)` does not restore `moon.w`: the second
call divides by the zero scale and the uniform holds no number. -/
theorem setScale_round_trip_zero :
    (MoonGeode.new : MoonGeode ℚ).u_moon.w = some 1 ∧
      (MoonGeode.new : MoonGeode ℚ).m_scale = 2 ∧
      (((MoonGeode.new : MoonGeode ℚ).setScale 0).1.setScale 2).1.u_moon.w = none ∧
      (((MoonGeode.new : MoonGeode ℚ).setScale 0).1.setScale 2).1.u_moon.w ≠ some 1 := by
  refine ⟨by norm_num [MoonGeode.new], rfl, ?_, ?_⟩ <;>
    simp [MoonGeode.new, defaultScale, setScale, sdiv]

/-- C2: `update` stores in `moonr.w` the value read by `moonv[3]`, an index
behind the three components of the apparent Moon position; the angular
radius of the ephemeris does not enter.  With the memory behind `moonv`
holding 0, the example ephemeris (radius `0.01`) gives `moonr.w = 0`. -/
theorem update_moonr_reads_past_moonv :
    (∀ (g : MoonGeode ℚ) (astro : AbstractAstronomy ℚ) (past : ℚ),
      (g.update astro past).u_moonr = Vec4.ofVec3 (astro.getMoonPosition true) past) ∧
    ((MoonGeode.new : MoonGeode ℚ).update exampleAstro 0).u_moonr.w = 0 ∧
    ((MoonGeode.new : MoonGeode ℚ).update exampleAstro 0).u_moonr.w
      ≠ exampleAstro.getAngularMoonRadius := by
  refine ⟨fun g astro past => rfl, rfl, ?_⟩
  norm_num [update, Vec4.ofVec3, Vec3.index, exampleAstro]

/-- C8: after `update`, `moon` holds the apparent (not refraction corrected)
Moon position in xyz and the angular radius times `m_scale` in w; with radius
`0.01` and scale `2.0` the w component is `0.02`. -/
theorem update_sets_moon (g : MoonGeode ℚ) (astro : AbstractAstronomy ℚ) (past : ℚ) :
    (g.update astro past).u_moon =
        Vec4.ofVec3 ((astro.getMoonPosition false).map some)
          (some (astro.getAngularMoonRadius * g.m_scale)) ∧
      (astro.getAngularMoonRadius = 0.01 → g.m_scale = 2.0 →
        (g.update astro past).u_moon.w = some 0.02) := by
  refine ⟨rfl, fun hr hs => ?_⟩
  simp only [update, Vec4.ofVec3, hr, hs]
  norm_num

/-- C8, witness: the fresh node (scale 2) updated from the example ephemeris. -/
theorem update_sets_moon_witness :
    ((MoonGeode.new : MoonGeode ℚ).update exampleAstro 0).u_moon
        = ⟨some 0.001, some 0, some 0.9999995, some 0.02⟩ ∧
      ((MoonGeode.new : MoonGeode ℚ).update exampleAstro 0).u_moon.w = some 0.02 := by
  have h := update_sets_moon (MoonGeode.new : MoonGeode ℚ) exampleAstro 0
  refine ⟨?_, h.2 rfl (by norm_num [MoonGeode.new, defaultScale])⟩
  rw [h.1]
  norm_num [exampleAstro, Vec4.ofVec3, Vec3.map, MoonGeode.new, defaultScale]

/-- C10: a freshly constructed node has scale 2.0, sun shine intensity 24.0, sun
shine colour (1.0, 0.96, 0.80), earth shine colour (0.92, 0.96, 1.00) and earth
shine intensity 1.0. -/
theorem new_defaults :
    (MoonGeode.new : MoonGeode ℚ).getScale = 2.0 ∧
      (MoonGeode.new : MoonGeode ℚ).getSunShineIntensity = 24.0 ∧
      (MoonGeode.new : MoonGeode ℚ).getSunShineColor = ⟨1.0, 0.96, 0.80⟩ ∧
      (MoonGeode.new : MoonGeode ℚ).getEarthShineColor = ⟨0.92, 0.96, 1.00⟩ ∧
      (MoonGeode.new : MoonGeode ℚ).getEarthShineIntensity = 1.0 := by
  norm_num [MoonGeode.new, getScale, getSunShineIntensity, getSunShineColor,
    getEarthShineColor, getEarthShineIntensity, defaultScale, defaultSunShineIntensity,
    defaultSunShineColor, defaultEarthShineColor, defaultEarthShineIntensity, Vec4.ofVec3]

/-- C11: `setScale(newScale)` sets `moon.w` to `(old moon.w) / oldScale * newScale`
(a number when the old `w` is a number and the old scale is not zero, no number
otherwise), sets `m_scale` to `newScale`, returns `newScale`, and leaves
`moon.xyz`, `moonr`, `R`, `sunShine`, `earthShine`, the earth shine colour and
the earth shine scale unchanged. -/
theorem setScale_post_frame (g : MoonGeode ℚ) (newScale : ℚ) :
    (∀ r : ℚ, g.u_moon.w = some r → g.m_scale ≠ 0 →
        (g.setScale newScale).1.u_moon.w = some (r / g.m_scale * newScale)) ∧
      (g.u_moon.w = none ∨ g.m_scale = 0 → (g.setScale newScale).1.u_moon.w = none) ∧
      (g.setScale newScale).1.m_scale = newScale ∧
      (g.setScale newScale).2 = newScale ∧
      (g.setScale newScale).1.u_moon.x = g.u_moon.x ∧
      (g.setScale newScale).1.u_moon.y = g.u_moon.y ∧
      (g.setScale newScale).1.u_moon.z = g.u_moon.z ∧
      (g.setScale newScale).1.u_moonr = g.u_moonr ∧
      (g.setScale newScale).1.u_R = g.u_R ∧
      (g.setScale newScale).1.u_sunShine = g.u_sunShine ∧
      (g.setScale newScale).1.u_earthShine = g.u_earthShine ∧
      (g.setScale newScale).1.m_earthShineColor = g.m_earthShineColor ∧
      (g.setScale newScale).1.m_earthShineScale = g.m_earthShineScale := by
  refine ⟨fun r hr h0 => ?_, fun h => ?_, rfl, rfl, rfl, rfl, rfl, rfl, rfl, rfl, rfl, rfl, rfl⟩
  · simp only [setScale, sdiv, hr, Option.some_bind, if_neg h0, Option.map_some']
  · rcases h with h | h
    · simp only [setScale, h, Option.none_bind, Option.map_none']
    · cases hw : g.u_moon.w with
      | none => simp only [setScale, hw, Option.none_bind, Option.map_none']
      | some r => simp only [setScale, sdiv, hw, h, Option.some_bind, if_true, Option.map_none']

/-- C11, witness: the fresh node (`moon.w = 1`, scale 2) with `setScale(3)`. -/
theorem setScale_post_frame_witness :
    (MoonGeode.new : MoonGeode ℚ).u_moon.w = some 1 ∧
      (MoonGeode.new : MoonGeode ℚ).m_scale ≠ 0 ∧
      ((MoonGeode.new : MoonGeode ℚ).setScale 3).1.u_moon.w
        = some (1 / (MoonGeode.new : MoonGeode ℚ).m_scale * 3) := by
  have hw : (MoonGeode.new : MoonGeode ℚ).u_moon.w = some 1 := by norm_num [MoonGeode.new]
  have hs0 : (MoonGeode.new : MoonGeode ℚ).m_scale ≠ 0 := by
    norm_num [MoonGeode.new, defaultScale]
  exact ⟨hw, hs0, (setScale_post_frame MoonGeode.new 3).1 1 hw hs0⟩

/-- C12: after `update`, `earthShine` is, component by component,
`earthShineColor * getEarthShineIntensity() * earthShineScale`; the colour and
the scale are the ones last set by `setEarthShineColor` and
`setEarthShineIntensity` (the defaults on a fresh node), and `update` changes
neither them nor `m_scale` nor `sunShine`. -/
theorem update_earthShine (g : MoonGeode ℚ) (astro : AbstractAstronomy ℚ) (past : ℚ)
    (color : Vec3 ℚ) (intensity : ℚ) :
    (g.update astro past).u_earthShine =
        ⟨g.m_earthShineColor.x * astro.getEarthShineIntensity * g.m_earthShineScale,
         g.m_earthShineColor.y * astro.getEarthShineIntensity * g.m_earthShineScale,
         g.m_earthShineColor.z * astro.getEarthShineIntensity * g.m_earthShineScale⟩ ∧
      (((g.setEarthShineColor color).1.setEarthShineIntensity intensity).1.update astro
          past).u_earthShine =
        ⟨color.x * astro.getEarthShineIntensity * intensity,
         color.y * astro.getEarthShineIntensity * intensity,
         color.z * astro.getEarthShineIntensity * intensity⟩ ∧
      (((g.setEarthShineIntensity intensity).1.setEarthShineColor color).1.update astro
          past).u_earthShine =
        ⟨color.x * astro.getEarthShineIntensity * intensity,
         color.y * astro.getEarthShineIntensity * intensity,
         color.z * astro.getEarthShineIntensity * intensity⟩ ∧
      ((MoonGeode.new : MoonGeode ℚ).update astro past).u_earthShine =
        ⟨0.92 * astro.getEarthShineIntensity * 1, 0.96 * astro.getEarthShineIntensity * 1,
         1.00 * astro.getEarthShineIntensity * 1⟩ ∧
      (g.update astro past).m_earthShineColor = g.m_earthShineColor ∧
      (g.update astro past).m_earthShineScale = g.m_earthShineScale ∧
      (g.update astro past).m_scale = g.m_scale ∧
      (g.update astro past).u_sunShine = g.u_sunShine := by
  refine ⟨rfl, rfl, rfl, ?_, rfl, rfl, rfl, rfl⟩
  norm_num [update, MoonGeode.new, Vec3.scale, defaultEarthShineColor,
    defaultEarthShineIntensity]

/-- C14: `setSunShineColor(c)` returns `c`, makes `getSunShineColor()` equal to `c`
and keeps `getSunShineIntensity()`; `setSunShineIntensity(i)` returns `i`, makes
`getSunShineIntensity()` equal to `i` and keeps `getSunShineColor()`; both leave
`moon`, `moonr`, `m_scale` and the earth shine colour and scale unchanged.  No
value of `c` or `i` is excluded. -/
theorem sunShine_accessors (g : MoonGeode ℚ) (c : Vec3 ℚ) (i : ℚ) :
    ((g.setSunShineColor c).2 = c ∧
        (g.setSunShineColor c).1.getSunShineColor = c ∧
        (g.setSunShineColor c).1.getSunShineIntensity = g.getSunShineIntensity ∧
        (g.setSunShineColor c).1.u_moon = g.u_moon ∧
        (g.setSunShineColor c).1.u_moonr = g.u_moonr ∧
        (g.setSunShineColor c).1.m_scale = g.m_scale ∧
        (g.setSunShineColor c).1.m_earthShineColor = g.m_earthShineColor ∧
        (g.setSunShineColor c).1.m_earthShineScale = g.m_earthShineScale) ∧
      ((g.setSunShineIntensity i).2 = i ∧
        (g.setSunShineIntensity i).1.getSunShineIntensity = i ∧
        (g.setSunShineIntensity i).1.getSunShineColor = g.getSunShineColor ∧
        (g.setSunShineIntensity i).1.u_moon = g.u_moon ∧
        (g.setSunShineIntensity i).1.u_moonr = g.u_moonr ∧
        (g.setSunShineIntensity i).1.m_scale = g.m_scale ∧
        (g.setSunShineIntensity i).1.m_earthShineColor = g.m_earthShineColor ∧
        (g.setSunShineIntensity i).1.m_earthShineScale = g.m_earthShineScale) := by
  obtain ⟨cx, cy, cz⟩ := c
  exact ⟨⟨rfl, rfl, rfl, rfl, rfl, rfl, rfl, rfl⟩, ⟨rfl, rfl, rfl, rfl, rfl, rfl, rfl, rfl⟩⟩

/-- One more call in front of a sequence of `setScale` calls. -/
theorem setScales_cons (g : MoonGeode ℚ) (s : ℚ) (l : List ℚ) :
    g.setScales (s :: l) = (g.setScale s).1.setScales l :=
  rfl

/-- C17: if `moon.w = A * m_scale` with `m_scale` not zero, then after any finite
sequence of `setScale` calls with non-zero arguments `moon.w = A * m_scale` holds
again; `m_scale` is the last scale passed, so the final `moon.w` is `A` times the
last scale whatever the scales in between were. -/
theorem setScales_invariant (g : MoonGeode ℚ) (A : ℚ) (scales : List ℚ)
    (hw : g.u_moon.w = some (A * g.m_scale)) (h0 : g.m_scale ≠ 0)
    (hs : ∀ s ∈ scales, s ≠ 0) :
    (g.setScales scales).u_moon.w = some (A * (g.setScales scales).m_scale) ∧
      (g.setScales scales).m_scale = scales.getLastD g.m_scale ∧
      (g.setScales scales).u_moon.w = some (A * scales.getLastD g.m_scale) := by
  induction scales generalizing g with
  | nil => exact ⟨hw, rfl, hw⟩
  | cons s l ih =>
    have hs0 : s ≠ 0 := hs s (List.mem_cons_self s l)
    have hw1 : (g.setScale s).1.u_moon.w = some (A * (g.setScale s).1.m_scale) := by
      simp only [setScale, sdiv, hw, Option.some_bind, if_neg h0, Option.map_some',
        Option.some.injEq]
      field_simp
    have h1 : (g.setScale s).1.m_scale ≠ 0 := hs0
    have hl : ∀ t ∈ l, t ≠ 0 := fun t ht => hs t (List.mem_cons_of_mem s ht)
    have h := ih (g.setScale s).1 hw1 h1 hl
    have hlast : (s :: l).getLastD g.m_scale = l.getLastD (g.setScale s).1.m_scale := by
      rw [List.getLastD_cons]
      rfl
    rw [setScales_cons, hlast]
    exact ⟨h.1, h.2.1, h.2.2⟩

/-- C17, witness: the fresh node (`moon.w = 1 = 0.5 * 2`) after `setScale(3)`,
`setScale(-7)`, `setScale(0.5)`. -/
theorem setScales_invariant_witness :
    (MoonGeode.new : MoonGeode ℚ).u_moon.w = some (0.5 * (MoonGeode.new : MoonGeode ℚ).m_scale) ∧
      ((MoonGeode.new : MoonGeode ℚ).setScales [3, -7, 0.5]).u_moon.w
        = some (0.5 * [3, -7, (0.5 : ℚ)].getLastD (MoonGeode.new : MoonGeode ℚ).m_scale) := by
  have hw : (MoonGeode.new : MoonGeode ℚ).u_moon.w
      = some (0.5 * (MoonGeode.new : MoonGeode ℚ).m_scale) := by
    norm_num [MoonGeode.new, defaultScale]
  have h0 : (MoonGeode.new : MoonGeode ℚ).m_scale ≠ 0 := by
    norm_num [MoonGeode.new, defaultScale]
  have hs : ∀ s ∈ [3, -7, (0.5 : ℚ)], s ≠ 0 := by
    intro s hmem
    simp only [List.mem_cons, List.mem_singleton, List.not_mem_nil, or_false] at hmem
    rcases hmem with h | h | h <;> rw [h] <;> norm_num
  exact ⟨hw, (setScales_invariant MoonGeode.new 0.5 [3, -7, 0.5] hw h0 hs).2.2⟩

end NodeTheorems

/-! ## Properties of the fragment stage -/

section FragmentTheorems

/-- The retrodirective term is positive for a positive `tan_p`. -/
theorem retro_pos (T : ℝ) (hT : 0 < T) :
    0 < (2.0 : ℝ) - T / (2.0 * 0.6) * (1.0 - Real.exp (-0.6 / T))
      * (3.0 - Real.exp (-0.6 / T)) := by
  have ha : (0 : ℝ) < 0.6 / T := by positivity
  have hq : (-0.6 : ℝ) / T = -(0.6 / T) := by ring
  rw [hq]
  have hE0 : 0 < Real.exp (-(0.6 / T)) := Real.exp_pos _
  have hE1 : Real.exp (-(0.6 / T)) < 1 := Real.exp_lt_one_iff.mpr (by linarith)
  have hE2 : 1 - 0.6 / T ≤ Real.exp (-(0.6 / T)) := by
    have := Real.add_one_le_exp (-(0.6 / T))
    linarith
  generalize Real.exp (-(0.6 / T)) = E at hE0 hE1 hE2
  have hk : (0 : ℝ) < T / (2.0 * 0.6) := by positivity
  have h1 : T / (2.0 * 0.6) * (1.0 - E) ≤ 1 / 2 := by
    have h2 : T / (2.0 * 0.6) * (1.0 - E) ≤ T / (2.0 * 0.6) * (0.6 / T) :=
      mul_le_mul_of_nonneg_left (by linarith) hk.le
    have h3 : T / (2.0 * 0.6) * (0.6 / T) = 1 / 2 := by
      field_simp
      ring
    linarith
  have h0 : 0 ≤ T / (2.0 * 0.6) * (1.0 - E) := mul_nonneg hk.le (by linarith)
  nlinarith

/-- The clamped `cos_p` lies between 0 and 1. -/
theorem cos_p_unit (x : ℝ) : 0 ≤ clamp x (0.0 : ℝ) 1.0 ∧ clamp x (0.0 : ℝ) 1.0 ≤ 1 := by
  simp only [clamp]
  constructor
  · exact le_min (le_trans (by norm_num) (le_max_right x 0.0)) (by norm_num)
  · exact le_trans (min_le_right _ _) (by norm_num)

/-- The retrodirective term is positive at every phase angle `p = acos(cos_p)`
with `0 ≤ cos_p ≤ 1`. -/
theorem retrodirective_pos (c : ℝ) (h0 : 0 ≤ c) (h1 : c ≤ 1) :
    0 < retrodirective Real.sin Real.cos Real.exp (Real.arccos c) := by
  have hcos : Real.cos (Real.arccos c) = c := Real.cos_arccos (by linarith) h1
  have hsin : 0 ≤ Real.sin (Real.arccos c) := by
    rw [Real.sin_arccos]
    exact Real.sqrt_nonneg _
  by_cases hc : c = 0
  · have hcos0 : Real.cos (Real.arccos c) = 0 := by rw [hcos, hc]
    have htan : tan Real.sin Real.cos (Real.arccos c) = none := by
      simp only [tan, sdiv, hcos0, if_true]
    simp only [retrodirective, htan]
    norm_num
  · have hcpos : 0 < c := lt_of_le_of_ne h0 (Ne.symm hc)
    have htan : tan Real.sin Real.cos (Real.arccos c)
        = some (Real.sin (Real.arccos c) / c) := by
      simp only [tan, sdiv, hcos, if_neg hc]
    have hT : 0 ≤ Real.sin (Real.arccos c) / c := div_nonneg hsin h0
    simp only [retrodirective, htan]
    by_cases hz : Real.sin (Real.arccos c) / c = 0
    · rw [if_pos hz, hz]
      norm_num
    · rw [if_neg hz]
      exact retro_pos _ (lt_of_le_of_ne hT (Ne.symm hz))

/-- The scattering term is positive for `0 ≤ cos_p ≤ 1`. -/
theorem scatter_pos (c : ℝ) (h0 : 0 ≤ c) (h1 : c ≤ 1) :
    0 < (Real.sin (Real.arccos c) + (PI - Real.arccos c) * c) / PI
      + 0.1 * (1.0 - c) * (1.0 - c) := by
  have hPI : (2 : ℝ) < PI := by norm_num [PI]
  have hp : Real.arccos c ≤ 2 := by
    have h2 : Real.arccos c ≤ Real.pi / 2 := Real.arccos_le_pi_div_two.mpr h0
    have h3 := Real.pi_le_four
    linarith
  have hs0 : 0 ≤ Real.sin (Real.arccos c) := by
    rw [Real.sin_arccos]
    exact Real.sqrt_nonneg _
  have hm0 : 0 ≤ (PI - Real.arccos c) * c := mul_nonneg (by linarith) h0
  have hn : 0 < Real.sin (Real.arccos c) + (PI - Real.arccos c) * c := by
    by_cases hc : c < 1
    · have hs : 0 < Real.sin (Real.arccos c) := by
        rw [Real.sin_arccos]
        apply Real.sqrt_pos.mpr
        nlinarith
      linarith
    · have hc1 : c = 1 := le_antisymm h1 (not_lt.mp hc)
      have hm : 0 < (PI - Real.arccos c) * c := by
        rw [hc1, Real.arccos_one]
        linarith
      linarith
  have hd : 0 < (Real.sin (Real.arccos c) + (PI - Real.arccos c) * c) / PI :=
    div_pos hn (by linarith)
  have ht : (0 : ℝ) ≤ 0.1 * (1.0 - c) * (1.0 - c) := by
    have : (0 : ℝ) ≤ (1.0 - c) * (1.0 - c) := mul_self_nonneg _
    nlinarith
  linarith

/-- The computed value of `F`, for every `eye` and `sun`, where the two
quotients by `dot_nl` and by `1 + (-dot_ne) / dot_nl` are defined: a positive
number divided by `1 + (-dot_ne) / dot_nl`. -/
theorem brdfRaw_eq (eye sun mn : Vec3 ℝ)
    (hnl : dot mn sun ≠ 0) (hD : (1.0 : ℝ) + -dot mn eye / dot mn sun ≠ 0) :
    ∃ K : ℝ, 0 < K ∧ brdfRaw Real.arccos Real.sin Real.cos Real.exp eye sun mn
      = some (K / (1.0 + -dot mn eye / dot mn sun)) := by
  obtain ⟨h0, h1⟩ := cos_p_unit (dot eye sun)
  have hR := retrodirective_pos _ h0 h1
  have hS := scatter_pos _ h0 h1
  have hC : (0 : ℝ) < TWO_OVER_THREEPI := by norm_num [TWO_OVER_THREEPI]
  refine ⟨TWO_OVER_THREEPI
      * retrodirective Real.sin Real.cos Real.exp (Real.arccos (clamp (dot eye sun) 0.0 1.0))
      * ((Real.sin (Real.arccos (clamp (dot eye sun) 0.0 1.0))
            + (PI - Real.arccos (clamp (dot eye sun) 0.0 1.0)) * clamp (dot eye sun) 0.0 1.0)
          / PI
          + 0.1 * (1.0 - clamp (dot eye sun) 0.0 1.0) * (1.0 - clamp (dot eye sun) 0.0 1.0))
      * 1.0, ?_, ?_⟩
  · exact mul_pos (mul_pos (mul_pos hC hR) hS) (by norm_num)
  · simp only [brdfRaw, sdiv, if_neg hnl, if_neg hD]

/-- Where `dot_ne < dot_nl < 0` the value of `F` is defined and negative, for
every `eye` and `sun`. -/
theorem brdf_neg_of_lt (eye sun mn : Vec3 ℝ) (hne : dot mn eye < dot mn sun)
    (hnl : dot mn sun < 0) :
    ∃ F : ℝ, brdf Real.arccos Real.sin Real.cos Real.exp eye sun mn = some F ∧ F < 0 := by
  have hneg : ¬ dot mn sun > (0.0 : ℝ) := by norm_num; exact hnl.le
  have hD : (1.0 : ℝ) + -dot mn eye / dot mn sun < 0 := by
    have hq : -dot mn eye / dot mn sun = dot mn eye / -dot mn sun := by
      rw [neg_div, div_neg]
    have hlt : dot mn eye / -dot mn sun < -1 := by
      rw [div_lt_iff₀ (by linarith)]
      linarith
    rw [hq]
    norm_num
    linarith
  obtain ⟨K, hK, hF⟩ := brdfRaw_eq eye sun mn hnl.ne hD.ne
  exact ⟨_, by simp only [brdf, if_neg hneg, hF], div_neg_of_pos_of_neg hK hD⟩

/-- The value of `F` on the clamped region `dot(eye, sun) ≤ 0`, at eye
`(0, 0, 1)`, sun `(0, 0, -1)` and normal `(0.6, 0, 0.8)`:
`TWO_OVER_THREEPI * 2.0 * (1 / PI + 0.1) / 2`, about `0.088768`. -/
theorem brdf_clamped_value :
    brdf Real.arccos Real.sin Real.cos Real.exp (⟨0, 0, 1⟩ : Vec3 ℝ) ⟨0, 0, -1⟩ ⟨0.6, 0, 0.8⟩
        = some (TWO_OVER_THREEPI * 2.0 * (1 / PI + 0.1) / 2) ∧
      (0.088768 : ℝ) < TWO_OVER_THREEPI * 2.0 * (1 / PI + 0.1) / 2 ∧
      TWO_OVER_THREEPI * 2.0 * (1 / PI + 0.1) / 2 < (0.088769 : ℝ) := by
  have hes : clamp (dot (⟨0, 0, 1⟩ : Vec3 ℝ) ⟨0, 0, -1⟩) (0.0 : ℝ) 1.0 = 0 := by
    norm_num [clamp, dot]
  have hnl : dot (⟨0.6, 0, 0.8⟩ : Vec3 ℝ) ⟨0, 0, -1⟩ = -0.8 := by norm_num [dot]
  have hne : dot (⟨0.6, 0, 0.8⟩ : Vec3 ℝ) ⟨0, 0, 1⟩ = 0.8 := by norm_num [dot]
  have hneg : ¬ dot (⟨0.6, 0, 0.8⟩ : Vec3 ℝ) ⟨0, 0, -1⟩ > (0.0 : ℝ) := by
    rw [hnl]
    norm_num
  have htan : tan Real.sin Real.cos (Real.pi / 2) = none := by
    simp only [tan, sdiv, Real.cos_pi_div_two, if_true]
  have hR : retrodirective Real.sin Real.cos Real.exp (Real.pi / 2) = 2.0 := by
    simp only [retrodirective, htan]
  refine ⟨?_, by norm_num [TWO_OVER_THREEPI, PI], by norm_num [TWO_OVER_THREEPI, PI]⟩
  simp only [brdf, if_neg hneg, brdfRaw, hes, Real.arccos_zero, hR, Real.sin_pi_div_two, hnl,
    hne, sdiv]
  norm_num

/-- C3 (as amended): for every `eye` and `sun`, the value of `F` used by the
fragment stage is defined and non-negative when `dot_nl > 0` (it is 0), and when
`dot_nl < 0` and `dot_ne > dot_nl` (the divisor `1 + (-dot_ne) / dot_nl` is then
positive). -/
theorem brdf_nonneg (eye sun mn : Vec3 ℝ)
    (h : dot mn sun > 0 ∨ (dot mn sun < 0 ∧ dot mn sun < dot mn eye)) :
    ∃ F : ℝ, brdf Real.arccos Real.sin Real.cos Real.exp eye sun mn = some F ∧ 0 ≤ F := by
  rcases h with h | ⟨hnl, hne⟩
  · have hpos : dot mn sun > (0.0 : ℝ) := by norm_num; exact h
    exact ⟨0.0, by simp only [brdf, if_pos hpos], by norm_num⟩
  · have hneg : ¬ dot mn sun > (0.0 : ℝ) := by norm_num; exact hnl.le
    have hD : (0 : ℝ) < 1.0 + -dot mn eye / dot mn sun := by
      have hq : -dot mn eye / dot mn sun = dot mn eye / -dot mn sun := by
        rw [neg_div, div_neg]
      have hlt : -1 < dot mn eye / -dot mn sun := by
        rw [lt_div_iff₀ (by linarith)]
        linarith
      rw [hq]
      norm_num
      linarith
    obtain ⟨K, hK, hF⟩ := brdfRaw_eq eye sun mn hnl.ne hD.ne'
    exact ⟨_, by simp only [brdf, if_neg hneg, hF], (div_pos hK hD).le⟩

/-- C3, witness: eye `(0, 0, 1)`, sun `(0, 0, -1)`, normal `(0.6, 0, 0.8)`, where
`dot(eye, sun) = -1` is clamped to `cos_p = 0`, `dot_nl = -0.8` and
`dot_ne = 0.8`. -/
theorem brdf_nonneg_witness :
    (dot (⟨0.6, 0, 0.8⟩ : Vec3 ℝ) ⟨0, 0, -1⟩ < 0 ∧
        dot (⟨0.6, 0, 0.8⟩ : Vec3 ℝ) ⟨0, 0, -1⟩ < dot (⟨0.6, 0, 0.8⟩ : Vec3 ℝ) ⟨0, 0, 1⟩) ∧
      ∃ F : ℝ, brdf Real.arccos Real.sin Real.cos Real.exp
        (⟨0, 0, 1⟩ : Vec3 ℝ) ⟨0, 0, -1⟩ ⟨0.6, 0, 0.8⟩ = some F ∧ 0 ≤ F :=
  ⟨by norm_num [dot],
    brdf_nonneg ⟨0, 0, 1⟩ ⟨0, 0, -1⟩ ⟨0.6, 0, 0.8⟩ (Or.inr (by norm_num [dot]))⟩

/-- C3, counterexample: for the unit vectors eye `(0, 0, -1)`, sun
`(0.8, 0, -0.6)` and normal `(0, 0, 1)` (`dot_nl = -0.6`, `dot_ne = -1`) the
value of `F` is defined and negative. -/
theorem brdf_negative :
    ∃ F : ℝ, brdf Real.arccos Real.sin Real.cos Real.exp
      (⟨0, 0, -1⟩ : Vec3 ℝ) ⟨0.8, 0, -0.6⟩ ⟨0, 0, 1⟩ = some F ∧ F < 0 :=
  brdf_neg_of_lt ⟨0, 0, -1⟩ ⟨0.8, 0, -0.6⟩ ⟨0, 0, 1⟩ (by norm_num [dot]) (by norm_num [dot])

/-- C4: when `dot(mn, sun) > 0` the value of `F` used by the fragment stage is
exactly 0; the sun term `sunShine.w * sunShine.rgb * F` is then the zero vector
and `diffuse` is `max(0, earthShine * albedo)`. -/
theorem brdf_cut_off (eye sun mn : Vec3 ℝ) (h : dot mn sun > 0) :
    brdf Real.arccos Real.sin Real.cos Real.exp eye sun mn = some 0 ∧
      ∀ (earthShine : Vec3 ℝ) (sunShine : Vec4 ℝ) (c : Vec3 ℝ),
        (Vec3.smul sunShine.w sunShine.xyz).scale 0 = Vec3.splat 0 ∧
          diffuse earthShine sunShine c 0 = Vec3.max (Vec3.splat 0) (earthShine.mul c) := by
  constructor
  · have h0 : dot mn sun > (0.0 : ℝ) := by norm_num; exact h
    simp only [brdf, if_pos h0]
    norm_num
  · intro earthShine sunShine c
    simp only [diffuse, Vec3.scale, Vec3.smul, Vec3.splat, Vec3.add, Vec3.mul, Vec4.xyz]
    norm_num

/-- C4, witness: normal and sun direction both `(0, 0, 1)`. -/
theorem brdf_cut_off_witness :
    dot (⟨0, 0, 1⟩ : Vec3 ℝ) ⟨0, 0, 1⟩ > 0 ∧
      brdf Real.arccos Real.sin Real.cos Real.exp (⟨0, 0, 1⟩ : Vec3 ℝ) ⟨0, 0, 1⟩ ⟨0, 0, 1⟩
        = some 0 :=
  ⟨by norm_num [dot], (brdf_cut_off ⟨0, 0, 1⟩ ⟨0, 0, 1⟩ ⟨0, 0, 1⟩ (by norm_num [dot])).1⟩

/-- C5: when the distance `_d = length(cross(mn * _e0 - m, sun))` is at least
`_e1`, the multiplier `le` is exactly `(1, 1, 1)` and the colour written is
`diffuse` (with alpha 1). -/
theorem eclipse_outside_penumbra (mn m sun : Vec3 ℝ)
    (h : e1 ≤ length Real.sqrt (cross ((mn.scale e0).sub m) sun)) :
    eclipse Real.sqrt mn m sun = ⟨1, 1, 1⟩ ∧
      ∀ dif : Vec3 ℝ, fragColor (eclipse Real.sqrt mn m sun) dif = Vec4.ofVec3 dif 1 := by
  have hle : eclipse Real.sqrt mn m sun = ⟨1, 1, 1⟩ := by
    have hn : ¬ (length Real.sqrt (cross ((mn.scale e0).sub m) sun) - e1 < 0) := by
      linarith
    simp only [eclipse, eclipseLe, if_neg hn, Vec3.splat]
  refine ⟨hle, fun dif => ?_⟩
  rw [hle]
  simp only [fragColor, Vec3.mul, Vec4.ofVec3]
  norm_num

/-- C5, witness: normal `(0, 0, 1)`, Moon direction `(1, 0, 0)`, sun direction
`(0, 1, 0)`; the distance is `sqrt(1 + _e0^2)`. -/
theorem eclipse_outside_penumbra_witness :
    e1 ≤ length Real.sqrt (cross (((⟨0, 0, 1⟩ : Vec3 ℝ).scale e0).sub ⟨1, 0, 0⟩) ⟨0, 1, 0⟩) ∧
      eclipse Real.sqrt (⟨0, 0, 1⟩ : Vec3 ℝ) ⟨1, 0, 0⟩ ⟨0, 1, 0⟩ = ⟨1, 1, 1⟩ := by
  have h : e1 ≤ length Real.sqrt
      (cross (((⟨0, 0, 1⟩ : Vec3 ℝ).scale e0).sub ⟨1, 0, 0⟩) ⟨0, 1, 0⟩) := by
    simp only [length, dot, cross, Vec3.scale, Vec3.sub]
    apply Real.le_sqrt_of_sq_le
    norm_num [e1, e0]
  exact ⟨h, (eclipse_outside_penumbra ⟨0, 0, 1⟩ ⟨1, 0, 0⟩ ⟨0, 1, 0⟩ h).1⟩

/-- C6 (as amended): the fragment stage discards a pixel exactly when
`radius^2 - x^2 - y^2 < 1 - radius` or the normalised eye direction is below the
horizon; `(1, 1)` is always discarded, and `(0, 0)` always passes the disc test
and is discarded exactly when the eye direction is below the horizon. -/
theorem fragment_discard_iff (sqrt sin cos acos exp : ℝ → ℝ) (belowHorizon : Vec3 ℝ → Bool)
    (textureCube : Vec3 ℝ → Vec4 ℝ) (U : FragUniforms ℝ) (m_eye : Vec3 ℝ) (m_tangent : Mat4 ℝ) :
    (∀ tc : Vec4 ℝ,
      fragmentMain sqrt sin cos acos exp belowHorizon textureCube U tc m_eye m_tangent
          = some Fragment.discard ↔
        (radius * radius - tc.x * tc.x - tc.y * tc.y < 1 - radius ∨
          ∃ eye, normalize sqrt m_eye = some eye ∧ belowHorizon eye = true)) ∧
      (∀ z w : ℝ,
        fragmentMain sqrt sin cos acos exp belowHorizon textureCube U ⟨1, 1, z, w⟩ m_eye m_tangent
          = some Fragment.discard) ∧
      outsideDisc (0 : ℝ) 0 = false ∧
      (∀ z w : ℝ,
        fragmentMain sqrt sin cos acos exp belowHorizon textureCube U ⟨0, 0, z, w⟩ m_eye m_tangent
          = some Fragment.discard ↔
        ∃ eye, normalize sqrt m_eye = some eye ∧ belowHorizon eye = true) := by
  have key : ∀ tc : Vec4 ℝ,
      fragmentMain sqrt sin cos acos exp belowHorizon textureCube U tc m_eye m_tangent
          = some Fragment.discard ↔
        (radius * radius - tc.x * tc.x - tc.y * tc.y < 1 - radius ∨
          ∃ eye, normalize sqrt m_eye = some eye ∧ belowHorizon eye = true) := by
    intro tc
    unfold fragmentMain
    by_cases hd : radius * radius - tc.x * tc.x - tc.y * tc.y < (1 : ℝ) - radius
    · have ho : outsideDisc tc.x tc.y = true := by
        simp only [outsideDisc, decide_eq_true_eq]
        norm_num
        linarith
      simp [ho, hd]
    · have ho : outsideDisc tc.x tc.y = false := by
        simp only [outsideDisc, decide_eq_false_iff_not]
        norm_num
        linarith
      simp only [ho, hd, false_or]
      cases hn : normalize sqrt m_eye with
      | none => simp
      | some eye =>
        cases hb : belowHorizon eye with
        | true => simp [hb]
        | false =>
          cases hF : brdf acos sin cos exp eye U.sun
              (m_tangent.mulVec ⟨tc.x, tc.y, sqrt (radius * radius - tc.x * tc.x - tc.y * tc.y),
                1.0⟩).xyz with
          | none => simp [hb, hF]
          | some F => simp [hb, hF]
  have h00 : outsideDisc (0 : ℝ) 0 = false := by
    simp only [outsideDisc, decide_eq_false_iff_not]
    norm_num [radius]
  refine ⟨key, fun z w => ?_, h00, fun z w => ?_⟩
  · rw [key]
    left
    norm_num [radius]
  · rw [key]
    constructor
    · rintro (h | h)
      · norm_num [radius] at h
      · exact h
    · exact fun h => Or.inr h

/-- C6, counterexample: with the eye direction `(0, 0, -1)` and a horizon test
that rejects downward directions, the pixel `(0, 0)` is discarded although
`radius^2 - 0 - 0 < 1 - radius` is false. -/
theorem fragment_centre_discarded :
    fragmentMain Real.sqrt Real.sin Real.cos Real.arccos Real.exp
        (fun eye : Vec3 ℝ => decide (eye.z < 0)) (fun _ => ⟨1, 1, 1, 1⟩)
        ⟨⟨0, 1, 0⟩, ⟨0, 0, -1, 0.02⟩, Mat4.identity, ⟨1.0, 0.96, 0.80, 24⟩, ⟨0, 0, 0⟩⟩
        ⟨0, 0, 0, 1⟩ ⟨0, 0, -1⟩ Mat4.identity = some Fragment.discard ∧
      ¬ ((radius : ℝ) * radius - 0 * 0 - 0 * 0 < 1 - radius) := by
  constructor
  · have ho : outsideDisc (0 : ℝ) 0 = false := by
      simp only [outsideDisc, decide_eq_false_iff_not]
      norm_num [radius]
    have hn : normalize Real.sqrt (⟨0, 0, -1⟩ : Vec3 ℝ) = some ⟨0, 0, -1⟩ := by
      simp [normalize, length, dot]
    simp [fragmentMain, ho, hn]
  · norm_num [radius]

/-- C16: for a pixel that passes the disc test, `zz = radius^2 - x^2 - y^2` is at
least 0.02, hence positive, `z = sqrt(zz)` is positive with `z * z = zz`, and
`x^2 + y^2 ≤ radius^2 - (1 - radius)`. -/
theorem sqrt_safe_on_kept (x y : ℝ) (h : outsideDisc x y = false) :
    0.02 ≤ radius * radius - x * x - y * y ∧
      0 < radius * radius - x * x - y * y ∧
      0 < Real.sqrt (radius * radius - x * x - y * y) ∧
      Real.sqrt (radius * radius - x * x - y * y) * Real.sqrt (radius * radius - x * x - y * y)
        = radius * radius - x * x - y * y ∧
      x * x + y * y ≤ radius * radius - (1 - radius) := by
  simp only [outsideDisc, decide_eq_false_iff_not, not_lt] at h
  have hr : (1.0 : ℝ) - radius = 0.02 := by norm_num [radius]
  rw [hr] at h
  have hpos : 0 < radius * radius - x * x - y * y := by
    have : (0 : ℝ) < 0.02 := by norm_num
    linarith
  refine ⟨h, hpos, Real.sqrt_pos.mpr hpos, Real.mul_self_sqrt hpos.le, ?_⟩
  have hr1 : (1 : ℝ) - radius = 0.02 := by norm_num [radius]
  rw [hr1]
  linarith

/-- C16, witness: the pixel `(0.5, 0.5)`. -/
theorem sqrt_safe_on_kept_witness :
    outsideDisc (0.5 : ℝ) 0.5 = false ∧
      0 < Real.sqrt (radius * radius - (0.5 : ℝ) * 0.5 - 0.5 * 0.5) := by
  have h : outsideDisc (0.5 : ℝ) 0.5 = false := by
    simp only [outsideDisc, decide_eq_false_iff_not]
    norm_num [radius]
  exact ⟨h, (sqrt_safe_on_kept 0.5 0.5 h).2.2.1⟩

/-- C13 (as amended): for a pixel that passes the disc test, the reconstructed
point `(x, y, z)` with `z = sqrt(radius^2 - x^2 - y^2)` lies on the sphere of
radius `radius = 0.98`: `x^2 + y^2 + z^2 = radius^2 = 0.9604`. -/
theorem surface_point_on_radius_sphere (x y : ℝ) (h : outsideDisc x y = false) :
    x * x + y * y
        + Real.sqrt (radius * radius - x * x - y * y)
          * Real.sqrt (radius * radius - x * x - y * y) = radius * radius ∧
      (radius : ℝ) * radius = 0.9604 := by
  simp only [outsideDisc, decide_eq_false_iff_not, not_lt] at h
  have hr : (1.0 : ℝ) - radius = 0.02 := by norm_num [radius]
  rw [hr] at h
  have hnn : 0 ≤ radius * radius - x * x - y * y := by
    have : (0 : ℝ) < 0.02 := by norm_num
    linarith
  rw [Real.mul_self_sqrt hnn]
  exact ⟨by ring, by norm_num [radius]⟩

/-- C13, witness: the pixel `(0, 0)`. -/
theorem surface_point_on_radius_sphere_witness :
    outsideDisc (0 : ℝ) 0 = false ∧
      (0 : ℝ) * 0 + 0 * 0
        + Real.sqrt (radius * radius - 0 * 0 - 0 * 0)
          * Real.sqrt (radius * radius - 0 * 0 - 0 * 0) = radius * radius := by
  have h : outsideDisc (0 : ℝ) 0 = false := by
    simp only [outsideDisc, decide_eq_false_iff_not]
    norm_num [radius]
  exact ⟨h, (surface_point_on_radius_sphere 0 0 h).1⟩

/-- C13, counterexample: the pixel `(0, 0)` passes the disc test and its
reconstructed point `(0, 0, 0.98)` has `x^2 + y^2 + z^2 = 0.9604`, not 1. -/
theorem surface_point_not_unit :
    outsideDisc (0 : ℝ) 0 = false ∧
      Real.sqrt (radius * radius - 0 * 0 - 0 * 0) = 0.98 ∧
      (0 : ℝ) * 0 + 0 * 0
        + Real.sqrt (radius * radius - 0 * 0 - 0 * 0)
          * Real.sqrt (radius * radius - 0 * 0 - 0 * 0) ≠ 1 := by
  have h : outsideDisc (0 : ℝ) 0 = false := by
    simp only [outsideDisc, decide_eq_false_iff_not]
    norm_num [radius]
  have hz : Real.sqrt (radius * radius - 0 * 0 - 0 * 0) = 0.98 := by
    have e : (radius : ℝ) * radius - 0 * 0 - 0 * 0 = 0.98 * 0.98 := by norm_num [radius]
    rw [e]
    exact Real.sqrt_mul_self (by norm_num)
  refine ⟨h, hz, ?_⟩
  rw [hz]
  norm_num

end FragmentTheorems

/-! ## Properties of the vertex stage -/

section VertexTheorems

/-- The cross product `cross(vec3(0, 0, 1), m)`. -/
theorem cross_z (a b c : ℝ) : cross (⟨0, 0, 1⟩ : Vec3 ℝ) ⟨a, b, c⟩ = ⟨-b, a, 0⟩ := by
  simp [cross]

/-- C7: for a unit vector `m` other than `(0, 0, 1)` and `(0, 0, -1)` the vertex
stage's `u = normalize(cross(vec3(0, 0, 1), m))` and `v = normalize(cross(m, u))`
are defined, have length 1, are orthogonal to each other and to `m`, and
`cross(u, v) = m`. -/
theorem tangent_frame (m : Vec3 ℝ) (hm : length Real.sqrt m = 1) (h1 : m ≠ ⟨0, 0, 1⟩)
    (h2 : m ≠ ⟨0, 0, -1⟩) :
    ∃ u v : Vec3 ℝ, tangentSpace Real.sqrt m = some (u, v) ∧
      length Real.sqrt u = 1 ∧ length Real.sqrt v = 1 ∧
      dot u v = 0 ∧ dot u m = 0 ∧ dot v m = 0 ∧ cross u v = m := by
  obtain ⟨a, b, c⟩ := m
  have hunit : a * a + b * b + c * c = 1 := by
    simp only [length, dot] at hm
    exact Real.sqrt_eq_one.mp hm
  have hnn : 0 ≤ a * a + b * b := add_nonneg (mul_self_nonneg a) (mul_self_nonneg b)
  have hab : a * a + b * b ≠ 0 := by
    intro h0
    have ha : a = 0 := by nlinarith [mul_self_nonneg a, mul_self_nonneg b]
    have hb : b = 0 := by nlinarith [mul_self_nonneg a, mul_self_nonneg b]
    have hc : c * c = 1 := by nlinarith
    rcases mul_self_eq_one_iff.mp hc with h | h
    · exact h1 (by rw [ha, hb, h])
    · exact h2 (by rw [ha, hb, h])
  have hρpos : 0 < Real.sqrt (a * a + b * b) :=
    Real.sqrt_pos.mpr (lt_of_le_of_ne hnn (Ne.symm hab))
  have hρsq : Real.sqrt (a * a + b * b) * Real.sqrt (a * a + b * b) = a * a + b * b :=
    Real.mul_self_sqrt hnn
  have hlen : length Real.sqrt (⟨-b, a, 0⟩ : Vec3 ℝ) = Real.sqrt (a * a + b * b) := by
    simp only [length, dot]
    congr 1
    ring
  generalize Real.sqrt (a * a + b * b) = ρ at hρpos hρsq hlen
  have hρ0 : ρ ≠ 0 := hρpos.ne'
  have hu : normalize Real.sqrt (cross (⟨0, 0, 1⟩ : Vec3 ℝ) ⟨a, b, c⟩)
      = some ⟨-b / ρ, a / ρ, 0 / ρ⟩ := by
    rw [cross_z]
    simp only [normalize, hlen, if_neg hρ0]
  have hw : dot (cross (⟨a, b, c⟩ : Vec3 ℝ) ⟨-b / ρ, a / ρ, 0 / ρ⟩)
      (cross (⟨a, b, c⟩ : Vec3 ℝ) ⟨-b / ρ, a / ρ, 0 / ρ⟩) = 1 := by
    have hi : ρ⁻¹ * ρ⁻¹ * (a * a + b * b) = 1 := by
      rw [← hρsq]
      field_simp
    simp only [dot, cross, div_eq_mul_inv]
    linear_combination (ρ⁻¹ * ρ⁻¹ * (a * a + b * b)) * hunit + hi
  have hv : normalize Real.sqrt (cross (⟨a, b, c⟩ : Vec3 ℝ) ⟨-b / ρ, a / ρ, 0 / ρ⟩)
      = some ⟨(b * (0 / ρ) - c * (a / ρ)) / 1, (c * (-b / ρ) - a * (0 / ρ)) / 1,
          (a * (a / ρ) - b * (-b / ρ)) / 1⟩ := by
    simp only [normalize, length, hw, Real.sqrt_one, one_ne_zero, if_false]
    rfl
  have hi : ρ⁻¹ * ρ⁻¹ * (a * a + b * b) = 1 := by
    rw [← hρsq]
    field_simp
  refine ⟨⟨-b / ρ, a / ρ, 0 / ρ⟩,
    ⟨(b * (0 / ρ) - c * (a / ρ)) / 1, (c * (-b / ρ) - a * (0 / ρ)) / 1,
      (a * (a / ρ) - b * (-b / ρ)) / 1⟩, by simp only [tangentSpace, hu, hv], ?_, ?_, ?_, ?_, ?_, ?_⟩
  · simp only [length, dot, div_eq_mul_inv]
    rw [Real.sqrt_eq_one]
    linear_combination hi
  · simp only [length, dot, div_one, div_eq_mul_inv]
    rw [Real.sqrt_eq_one]
    linear_combination (ρ⁻¹ * ρ⁻¹ * (a * a + b * b)) * hunit + hi
  · simp only [dot, div_one, div_eq_mul_inv]
    ring
  · simp only [dot, div_one, div_eq_mul_inv]
    ring
  · simp only [dot, div_one, div_eq_mul_inv]
    ring
  · simp only [cross, Vec3.mk.injEq, div_one, div_eq_mul_inv]
    refine ⟨?_, ?_, ?_⟩
    · linear_combination a * hi
    · linear_combination b * hi
    · linear_combination c * hi

/-- C7, witness: the unit vector `(0.6, 0, 0.8)`. -/
theorem tangent_frame_witness :
    length Real.sqrt (⟨0.6, 0, 0.8⟩ : Vec3 ℝ) = 1 ∧
      ∃ u v : Vec3 ℝ, tangentSpace Real.sqrt (⟨0.6, 0, 0.8⟩ : Vec3 ℝ) = some (u, v) ∧
        length Real.sqrt u = 1 ∧ length Real.sqrt v = 1 ∧
        dot u v = 0 ∧ dot u ⟨0.6, 0, 0.8⟩ = 0 ∧ dot v ⟨0.6, 0, 0.8⟩ = 0 ∧
        cross u v = ⟨0.6, 0, 0.8⟩ := by
  have hm : length Real.sqrt (⟨0.6, 0, 0.8⟩ : Vec3 ℝ) = 1 := by
    simp only [length, dot]
    rw [Real.sqrt_eq_one]
    norm_num
  refine ⟨hm, tangent_frame ⟨0.6, 0, 0.8⟩ hm ?_ ?_⟩
  · intro h
    have hx := congrArg Vec3.x h
    norm_num at hx
  · intro h
    have hx := congrArg Vec3.x h
    norm_num at hx


/-- C9 (as amended): at the vertex `(x, y) = (0, 0)` the vector `x * u + y * v`
is the zero vector for all `u`, `v`, and the stage normalises it, which divides
by its length zero: for every Moon direction and angular radius the vertex
stage has no value for `m_eye` there. -/
theorem vertex_centre_undefined (mvp : Mat4 ℝ) (moon moonr : Vec4 ℝ) (z w : ℝ) :
    (∀ u v : Vec3 ℝ, (Vec3.smul 0 u).add (Vec3.smul 0 v) = ⟨0, 0, 0⟩) ∧
      normalize Real.sqrt (⟨0, 0, 0⟩ : Vec3 ℝ) = none ∧
      vertexMain Real.sqrt Real.sin Real.cos mvp moon moonr ⟨0, 0, z, w⟩ = none := by
  have hz : ∀ u v : Vec3 ℝ, (Vec3.smul 0 u).add (Vec3.smul 0 v) = ⟨0, 0, 0⟩ := by
    intro u v
    simp [Vec3.smul, Vec3.add]
  have hn : normalize Real.sqrt (⟨0, 0, 0⟩ : Vec3 ℝ) = none := by
    simp [normalize, length, dot]
  refine ⟨hz, hn, ?_⟩
  simp only [vertexMain]
  cases ht : tangentSpace Real.sqrt moonr.xyz with
  | none => rfl
  | some uv =>
    obtain ⟨u, v⟩ := uv
    cases htan : tan Real.sin Real.cos moon.w with
    | none => rfl
    | some t => simp only [hz, hn]

/-- C9, counterexample: for the Moon direction `(1, 0, 0)`, which is not
parallel to `(0, 0, 1)`, and angular radius 0, the tangent space and `mScale`
are defined, but the vertex `(0, 0)` yields no `m_eye`, hence not `m`. -/
theorem vertex_centre_not_moon :
    tangentSpace Real.sqrt (⟨1, 0, 0⟩ : Vec3 ℝ) = some (⟨0, 1, 0⟩, ⟨0, 0, 1⟩) ∧
      tan Real.sin Real.cos (0 : ℝ) = some 0 ∧
      ¬ ∃ out : VertexOut ℝ,
        vertexMain Real.sqrt Real.sin Real.cos Mat4.identity ⟨1, 0, 0, 0⟩ ⟨1, 0, 0, 0⟩
            ⟨0, 0, 0, 1⟩ = some out ∧ out.m_eye = ⟨1, 0, 0⟩ := by
  have hu : normalize Real.sqrt (cross (⟨0, 0, 1⟩ : Vec3 ℝ) ⟨1, 0, 0⟩) = some ⟨0, 1, 0⟩ := by
    simp [normalize, length, dot, cross]
  have hv : normalize Real.sqrt (cross (⟨1, 0, 0⟩ : Vec3 ℝ) ⟨0, 1, 0⟩) = some ⟨0, 0, 1⟩ := by
    simp [normalize, length, dot, cross]
  have ht : tangentSpace Real.sqrt (⟨1, 0, 0⟩ : Vec3 ℝ) = some (⟨0, 1, 0⟩, ⟨0, 0, 1⟩) := by
    simp [tangentSpace, hu, hv]
  have htan : tan Real.sin Real.cos (0 : ℝ) = some 0 := by
    simp [tan, sdiv]
  have hn : normalize Real.sqrt
      ((Vec3.smul (0 : ℝ) ⟨0, 1, 0⟩).add (Vec3.smul (0 : ℝ) ⟨0, 0, 1⟩)) = none := by
    simp [normalize, length, dot, Vec3.smul, Vec3.add]
  refine ⟨ht, htan, ?_⟩
  rintro ⟨out, h, -⟩
  simp [vertexMain, Vec4.xyz, ht, htan, hn] at h

/-- For a unit vector `m` off the z axis the tangent space of the vertex stage
is defined and `u`, `v` are orthonormal and orthogonal to `m`. -/
theorem tangentSpace_orthonormal (m : Vec3 ℝ) (hm : length Real.sqrt m = 1)
    (h1 : m ≠ ⟨0, 0, 1⟩) (h2 : m ≠ ⟨0, 0, -1⟩) :
    ∃ u v : Vec3 ℝ, tangentSpace Real.sqrt m = some (u, v) ∧
      dot u u = 1 ∧ dot v v = 1 ∧ dot u v = 0 ∧ dot u m = 0 ∧ dot v m = 0 := by
  obtain ⟨a, b, c⟩ := m
  have hunit : a * a + b * b + c * c = 1 := by
    simp only [length, dot] at hm
    exact Real.sqrt_eq_one.mp hm
  have hnn : 0 ≤ a * a + b * b := add_nonneg (mul_self_nonneg a) (mul_self_nonneg b)
  have hab : a * a + b * b ≠ 0 := by
    intro h0
    have ha : a = 0 := by nlinarith [mul_self_nonneg a, mul_self_nonneg b]
    have hb : b = 0 := by nlinarith [mul_self_nonneg a, mul_self_nonneg b]
    have hc : c * c = 1 := by nlinarith
    rcases mul_self_eq_one_iff.mp hc with h | h
    · exact h1 (by rw [ha, hb, h])
    · exact h2 (by rw [ha, hb, h])
  have hρ0 : Real.sqrt (a * a + b * b) ≠ 0 :=
    (Real.sqrt_pos.mpr (lt_of_le_of_ne hnn (Ne.symm hab))).ne'
  have hρsq : Real.sqrt (a * a + b * b) * Real.sqrt (a * a + b * b) = a * a + b * b :=
    Real.mul_self_sqrt hnn
  have hlen : length Real.sqrt (⟨-b, a, 0⟩ : Vec3 ℝ) = Real.sqrt (a * a + b * b) := by
    simp only [length, dot]
    congr 1
    ring
  generalize Real.sqrt (a * a + b * b) = ρ at hρ0 hρsq hlen
  have hi : ρ⁻¹ * ρ⁻¹ * (a * a + b * b) = 1 := by
    rw [← hρsq]
    field_simp
  have hu : normalize Real.sqrt (cross (⟨0, 0, 1⟩ : Vec3 ℝ) ⟨a, b, c⟩)
      = some ⟨-b / ρ, a / ρ, 0 / ρ⟩ := by
    rw [cross_z]
    simp only [normalize, hlen, if_neg hρ0]
  have hw : dot (cross (⟨a, b, c⟩ : Vec3 ℝ) ⟨-b / ρ, a / ρ, 0 / ρ⟩)
      (cross (⟨a, b, c⟩ : Vec3 ℝ) ⟨-b / ρ, a / ρ, 0 / ρ⟩) = 1 := by
    simp only [dot, cross, div_eq_mul_inv]
    linear_combination (ρ⁻¹ * ρ⁻¹ * (a * a + b * b)) * hunit + hi
  have hv : normalize Real.sqrt (cross (⟨a, b, c⟩ : Vec3 ℝ) ⟨-b / ρ, a / ρ, 0 / ρ⟩)
      = some ⟨(b * (0 / ρ) - c * (a / ρ)) / 1, (c * (-b / ρ) - a * (0 / ρ)) / 1,
          (a * (a / ρ) - b * (-b / ρ)) / 1⟩ := by
    simp only [normalize, length, hw, Real.sqrt_one, one_ne_zero, if_false]
    rfl
  refine ⟨⟨-b / ρ, a / ρ, 0 / ρ⟩,
    ⟨(b * (0 / ρ) - c * (a / ρ)) / 1, (c * (-b / ρ) - a * (0 / ρ)) / 1,
      (a * (a / ρ) - b * (-b / ρ)) / 1⟩, by simp only [tangentSpace, hu, hv], ?_, ?_, ?_, ?_, ?_⟩
  · simp only [dot, div_eq_mul_inv]
    linear_combination hi
  · simp only [dot, div_one, div_eq_mul_inv]
    linear_combination (ρ⁻¹ * ρ⁻¹ * (a * a + b * b)) * hunit + hi
  · simp only [dot, div_one, div_eq_mul_inv]
    ring
  · simp only [dot, div_one, div_eq_mul_inv]
    ring
  · simp only [dot, div_one, div_eq_mul_inv]
    ring

/-- The offset of a quad corner for an arbitrary value `k` of the constant
`SQRT2`: `m_eye - m = -(tan(moon.a) * k / sqrt 2) * (sx * u + sy * v)`. -/
theorem vertexMainWith_corner (k : ℝ) (mvp : Mat4 ℝ) (moon moonr : Vec4 ℝ) (u v : Vec3 ℝ)
    (ht : tangentSpace Real.sqrt moonr.xyz = some (u, v))
    (huu : dot u u = 1) (hvv : dot v v = 1) (huv : dot u v = 0)
    (sx sy z w : ℝ) (hsx : sx = 1 ∨ sx = -1) (hsy : sy = 1 ∨ sy = -1) :
    (vertexMainWith k Real.sqrt Real.sin Real.cos mvp moon moonr ⟨sx, sy, z, w⟩).map
        (fun o => o.m_eye.sub moonr.xyz)
      = (tan Real.sin Real.cos moon.w).map
        (fun t => Vec3.smul (-(t * k / Real.sqrt 2)) ((Vec3.smul sx u).add (Vec3.smul sy v))) := by
  have hww : dot ((Vec3.smul sx u).add (Vec3.smul sy v))
      ((Vec3.smul sx u).add (Vec3.smul sy v)) = 2 := by
    simp only [dot, Vec3.add, Vec3.smul] at huu hvv huv ⊢
    rcases hsx with rfl | rfl <;> rcases hsy with rfl | rfl
    · linear_combination huu + hvv + 2 * huv
    · linear_combination huu + hvv - 2 * huv
    · linear_combination huu + hvv - 2 * huv
    · linear_combination huu + hvv + 2 * huv
  have hs2 : Real.sqrt 2 ≠ 0 := (Real.sqrt_pos.mpr (by norm_num)).ne'
  have hn : normalize Real.sqrt ((Vec3.smul sx u).add (Vec3.smul sy v))
      = some ⟨((Vec3.smul sx u).add (Vec3.smul sy v)).x / Real.sqrt 2,
          ((Vec3.smul sx u).add (Vec3.smul sy v)).y / Real.sqrt 2,
          ((Vec3.smul sx u).add (Vec3.smul sy v)).z / Real.sqrt 2⟩ := by
    simp only [normalize, length, hww, if_neg hs2]
  simp only [vertexMainWith, ht]
  cases htan : tan Real.sin Real.cos moon.w with
  | none => rfl
  | some t =>
    simp only [hn, Option.map_some', Option.some.injEq]
    simp only [Vec3.sub, Vec3.scale, Vec3.smul, Vec3.add, Vec3.mk.injEq]
    refine ⟨?_, ?_, ?_⟩ <;> ring

/-- C15: for a unit Moon direction `m` off the z axis, with `SQRT2` taken as the
square root of 2, the vertex stage gives for each quad corner `(sx, sy)`,
`sx, sy = ±1`, `m_eye - m = -tan(moon.a) * (sx * u + sy * v)` (both sides
defined exactly when the tangent is).  These offsets are orthogonal to `m` and
`u`, `v` are orthonormal, so the corners form a square of half-side `tan(moon.a)`
in the plane through `m` perpendicular to `m`; every point `m + a * u + b * v`
with `a^2 + b^2 ≤ tan(moon.a)^2` is a convex combination of the four corners.
With the literal of the source the offset is scaled by `SQRT2 / sqrt 2`. -/
theorem quad_bounds_disc (mvp : Mat4 ℝ) (moon moonr : Vec4 ℝ)
    (hm : length Real.sqrt moonr.xyz = 1) (h1 : moonr.xyz ≠ ⟨0, 0, 1⟩)
    (h2 : moonr.xyz ≠ ⟨0, 0, -1⟩) :
    ∃ u v : Vec3 ℝ, tangentSpace Real.sqrt moonr.xyz = some (u, v) ∧
      (∀ sx sy z w : ℝ, (sx = 1 ∨ sx = -1) → (sy = 1 ∨ sy = -1) →
        (vertexMainWith (Real.sqrt 2) Real.sqrt Real.sin Real.cos mvp moon moonr
            ⟨sx, sy, z, w⟩).map (fun o => o.m_eye.sub moonr.xyz)
          = (tan Real.sin Real.cos moon.w).map
            (fun t => Vec3.smul (-t) ((Vec3.smul sx u).add (Vec3.smul sy v)))) ∧
      (∀ sx sy z w : ℝ, (sx = 1 ∨ sx = -1) → (sy = 1 ∨ sy = -1) →
        (vertexMain Real.sqrt Real.sin Real.cos mvp moon moonr
            ⟨sx, sy, z, w⟩).map (fun o => o.m_eye.sub moonr.xyz)
          = (tan Real.sin Real.cos moon.w).map
            (fun t => Vec3.smul (-(t * SQRT2 / Real.sqrt 2))
              ((Vec3.smul sx u).add (Vec3.smul sy v)))) ∧
      (∀ sx sy : ℝ, dot ((Vec3.smul sx u).add (Vec3.smul sy v)) moonr.xyz = 0) ∧
      (dot u u = 1 ∧ dot v v = 1 ∧ dot u v = 0) ∧
      (∀ t a b : ℝ, a * a + b * b ≤ t * t →
        ∃ l1 l2 l3 l4 : ℝ, 0 ≤ l1 ∧ 0 ≤ l2 ∧ 0 ≤ l3 ∧ 0 ≤ l4 ∧ l1 + l2 + l3 + l4 = 1 ∧
          moonr.xyz.add ((Vec3.smul a u).add (Vec3.smul b v)) =
            ((Vec3.smul l1
                (moonr.xyz.add (Vec3.smul (-t) ((Vec3.smul 1 u).add (Vec3.smul 1 v))))).add
              (Vec3.smul l2
                (moonr.xyz.add (Vec3.smul (-t) ((Vec3.smul 1 u).add (Vec3.smul (-1) v)))))).add
            ((Vec3.smul l3
                (moonr.xyz.add (Vec3.smul (-t) ((Vec3.smul (-1) u).add (Vec3.smul 1 v))))).add
              (Vec3.smul l4
                (moonr.xyz.add
                  (Vec3.smul (-t) ((Vec3.smul (-1) u).add (Vec3.smul (-1) v))))))) := by
  obtain ⟨u, v, ht, huu, hvv, huv, hum, hvm⟩ := tangentSpace_orthonormal moonr.xyz hm h1 h2
  refine ⟨u, v, ht, ?_, ?_, ?_, ⟨huu, hvv, huv⟩, ?_⟩
  · intro sx sy z w hsx hsy
    have h := vertexMainWith_corner (Real.sqrt 2) mvp moon moonr u v ht huu hvv huv sx sy z w
      hsx hsy
    have hs2 : Real.sqrt 2 ≠ 0 := (Real.sqrt_pos.mpr (by norm_num)).ne'
    have hk : ∀ t : ℝ, t * Real.sqrt 2 / Real.sqrt 2 = t := fun t => by field_simp
    simp only [hk] at h
    exact h
  · intro sx sy z w hsx hsy
    exact vertexMainWith_corner SQRT2 mvp moon moonr u v ht huu hvv huv sx sy z w hsx hsy
  · intro sx sy
    simp only [dot, Vec3.add, Vec3.smul] at hum hvm ⊢
    linear_combination sx * hum + sy * hvm
  · intro t a b hab
    by_cases ht0 : t = 0
    · have ha : a = 0 := by
        rw [ht0] at hab
        nlinarith [mul_self_nonneg a, mul_self_nonneg b]
      have hb : b = 0 := by
        rw [ht0] at hab
        nlinarith [mul_self_nonneg a, mul_self_nonneg b]
      refine ⟨1, 0, 0, 0, zero_le_one, le_refl 0, le_refl 0, le_refl 0, by norm_num, ?_⟩
      rw [ha, hb, ht0]
      simp only [Vec3.add, Vec3.smul, Vec3.mk.injEq]
      refine ⟨?_, ?_, ?_⟩ <;> ring
    · have htt : 0 < t * t := mul_self_pos.mpr ht0
      have hα : |a / t| ≤ 1 := by
        rw [abs_le_one_iff_mul_self_le_one, div_mul_div_comm, div_le_one htt]
        nlinarith [mul_self_nonneg b]
      have hβ : |b / t| ≤ 1 := by
        rw [abs_le_one_iff_mul_self_le_one, div_mul_div_comm, div_le_one htt]
        nlinarith [mul_self_nonneg a]
      obtain ⟨hα1, hα2⟩ := abs_le.mp hα
      obtain ⟨hβ1, hβ2⟩ := abs_le.mp hβ
      refine ⟨(1 - a / t) * (1 - b / t) / 4, (1 - a / t) * (1 + b / t) / 4,
        (1 + a / t) * (1 - b / t) / 4, (1 + a / t) * (1 + b / t) / 4, ?_, ?_, ?_, ?_, ?_, ?_⟩
      · exact div_nonneg (mul_nonneg (by linarith) (by linarith)) (by norm_num)
      · exact div_nonneg (mul_nonneg (by linarith) (by linarith)) (by norm_num)
      · exact div_nonneg (mul_nonneg (by linarith) (by linarith)) (by norm_num)
      · exact div_nonneg (mul_nonneg (by linarith) (by linarith)) (by norm_num)
      · ring
      · simp only [Vec3.add, Vec3.smul, Vec3.mk.injEq]
        refine ⟨?_, ?_, ?_⟩ <;> field_simp <;> ring

/-- C15, witness: the unit Moon direction `(0.6, 0, 0.8)` with angular radius
`moon.a = 0`, where the tangent is defined. -/
theorem quad_bounds_disc_witness :
    length Real.sqrt (⟨0.6, 0, 0.8, 0⟩ : Vec4 ℝ).xyz = 1 ∧
      tan Real.sin Real.cos (0 : ℝ) = some 0 ∧
      ∃ u v : Vec3 ℝ, tangentSpace Real.sqrt (⟨0.6, 0, 0.8, 0⟩ : Vec4 ℝ).xyz = some (u, v) ∧
        ∀ sx sy z w : ℝ, (sx = 1 ∨ sx = -1) → (sy = 1 ∨ sy = -1) →
          (vertexMainWith (Real.sqrt 2) Real.sqrt Real.sin Real.cos Mat4.identity
              ⟨0.6, 0, 0.8, 0⟩ ⟨0.6, 0, 0.8, 0⟩ ⟨sx, sy, z, w⟩).map
              (fun o => o.m_eye.sub (⟨0.6, 0, 0.8, 0⟩ : Vec4 ℝ).xyz)
            = (tan Real.sin Real.cos (⟨0.6, 0, 0.8, 0⟩ : Vec4 ℝ).w).map
              (fun t => Vec3.smul (-t) ((Vec3.smul sx u).add (Vec3.smul sy v))) := by
  have hm : length Real.sqrt (⟨0.6, 0, 0.8, 0⟩ : Vec4 ℝ).xyz = 1 := by
    simp only [length, dot, Vec4.xyz]
    rw [Real.sqrt_eq_one]
    norm_num
  have h1 : (⟨0.6, 0, 0.8, 0⟩ : Vec4 ℝ).xyz ≠ ⟨0, 0, 1⟩ := by
    intro h
    have hx := congrArg Vec3.x h
    norm_num [Vec4.xyz] at hx
  have h2 : (⟨0.6, 0, 0.8, 0⟩ : Vec4 ℝ).xyz ≠ ⟨0, 0, -1⟩ := by
    intro h
    have hx := congrArg Vec3.x h
    norm_num [Vec4.xyz] at hx
  obtain ⟨u, v, ht, hc, -⟩ :=
    quad_bounds_disc Mat4.identity ⟨0.6, 0, 0.8, 0⟩ ⟨0.6, 0, 0.8, 0⟩ hm h1 h2
  exact ⟨hm, by simp [tan, sdiv], u, v, ht, hc⟩

end VertexTheorems

end osgHimmel
